import Mathlib

/-!
Verification of the M/M/c queue analyzer (src/queue_analyzer.py).

The Python engine is embedded shallowly over the exact rationals: Python
floats become `ℚ`, Python ints become `ℤ` (server counts used as loop
bounds become `ℕ` via `Int.toNat`), the float value `inf` used as a
saturation sentinel becomes the constructor `FloatVal.inf`, and an HTTP
400 error becomes `Except.error` with the endpoint's detail string.
Randomness in the simulation endpoint is injected: the stream of
exponential interarrival draws is an explicit list of gaps and the stream
of service-duration draws an explicit function from draw index to value,
exactly as the draws are consumed by the source.
-/

/-- A Python float that is either a finite number or the `float('inf')`
sentinel used by the unstable branch of the analyzer. -/
inductive FloatVal where
  | fin : ℚ → FloatVal
  | inf : FloatVal
deriving DecidableEq, Repr

/-- Embedding of the `QueueMetrics` response model (lines 26-36). -/
structure QueueMetrics where
  rho : ℚ
  traffic_intensity : ℚ
  p0 : ℚ
  erlang_c : ℚ
  lq : FloatVal
  wq : FloatVal
  l : FloatVal
  w : FloatVal
  utilization : ℚ
  stable : Bool
deriving DecidableEq, Repr

/-- Embedding of `factorial` (lines 38-39): `math.factorial` returning a
number used in float arithmetic. -/
def factorial (n : ℕ) : ℚ :=
  (Nat.factorial n : ℚ)

/-- Embedding of `calculate_p0` (lines 41-44). -/
def calculate_p0 (a : ℚ) (c : ℕ) : ℚ :=
  let sum_term := (Finset.range c).sum (fun k => a ^ k / factorial k)
  let last_term := (a ^ c / factorial c) * ((c : ℚ) / ((c : ℚ) - a))
  1 / (sum_term + last_term)

/-- Embedding of `calculate_erlang_c` (lines 46-52). -/
def calculate_erlang_c (a : ℚ) (c : ℕ) (rho : ℚ) : ℚ :=
  if 1 ≤ rho then 1
  else
    let p0 := calculate_p0 a c
    let numerator := a ^ c / factorial c
    let denominator := 1 - rho
    numerator * p0 / denominator

/-- Embedding of the `/api/analyze` endpoint `analyze_queue` (lines 54-101).
Raising `HTTPException(400)` is modelled as `Except.error` carrying the
detail string. The integer `c_servers` parameter is `ℤ`; where the source
uses it as a loop bound or factorial argument it is taken through
`Int.toNat` (faithful on the validated region c ≥ 1). -/
def analyze_queue (lambda_rate mu_rate : ℚ) (c_servers : ℤ) :
    Except String QueueMetrics :=
  let lam := lambda_rate
  let mu := mu_rate
  let c := c_servers
  if lam ≤ 0 ∨ mu ≤ 0 ∨ c ≤ 0 then
    Except.error "Parameters must be positive"
  else
    let rho := lam / ((c : ℚ) * mu)
    let traffic_intensity := lam / mu
    if rho < 1 then
      let p0 := calculate_p0 traffic_intensity c.toNat
      let erlang_c := calculate_erlang_c traffic_intensity c.toNat rho
      let wq := (erlang_c / ((c : ℚ) * mu - lam)) * 60
      let lq := lam * (wq / 60)
      let w := wq + (60 / mu)
      let l := lam * (w / 60)
      Except.ok
        { rho := rho, traffic_intensity := traffic_intensity, p0 := p0,
          erlang_c := erlang_c, lq := .fin lq, wq := .fin wq, l := .fin l,
          w := .fin w, utilization := rho * 100, stable := true }
    else
      Except.ok
        { rho := rho, traffic_intensity := traffic_intensity, p0 := 0,
          erlang_c := 1, lq := .inf, wq := .inf, l := .inf, w := .inf,
          utilization := rho * 100, stable := false }

/-- Claim C1: for every offered load a and server count c with a < c,
`calculate_p0` returns 1 / ( Σ_{k=0}^{c-1} a^k/k! + (a^c/c!)·(c/(c−a)) ). -/
theorem calculate_p0_formula (a : ℚ) (c : ℕ) (h : a < (c : ℚ)) :
    calculate_p0 a c =
      1 / ((Finset.range c).sum (fun k => a ^ k / factorial k) +
        (a ^ c / factorial c) * ((c : ℚ) / ((c : ℚ) - a))) := rfl

/-- Witness for C1 at a = 1, c = 2. -/
theorem calculate_p0_formula_witness :
    (1 : ℚ) < ((2 : ℕ) : ℚ) ∧
      calculate_p0 1 2 =
        1 / ((Finset.range 2).sum (fun k => (1 : ℚ) ^ k / factorial k) +
          ((1 : ℚ) ^ 2 / factorial 2) * (((2 : ℕ) : ℚ) / (((2 : ℕ) : ℚ) - 1))) :=
  ⟨by norm_num, calculate_p0_formula 1 2 (by norm_num)⟩

/-- Claim C4: `calculate_erlang_c` returns 1.0 whenever ρ ≥ 1, and otherwise
returns (a^c/c!)·p0 / (1 − ρ) with p0 = `calculate_p0 a c`. -/
theorem calculate_erlang_c_formula (a : ℚ) (c : ℕ) (rho : ℚ) :
    calculate_erlang_c a c rho =
      if 1 ≤ rho then 1
      else (a ^ c / factorial c) * calculate_p0 a c / (1 - rho) := rfl

/-- Claim C2: for every λ > 0, μ > 0, c > 0 with ρ = λ/(cμ) ≥ 1, `analyze_queue`
returns a defined result (not an error) with p0 = 0, blocking probability 1,
Lq = Wq = L = W = +∞, and stable = false. -/
theorem analyze_queue_unstable (lam mu : ℚ) (c : ℤ) (hl : 0 < lam) (hm : 0 < mu)
    (hc : 0 < c) (hrho : 1 ≤ lam / ((c : ℚ) * mu)) :
    ∃ m : QueueMetrics, analyze_queue lam mu c = Except.ok m ∧
      m.p0 = 0 ∧ m.erlang_c = 1 ∧ m.lq = FloatVal.inf ∧ m.wq = FloatVal.inf ∧
      m.l = FloatVal.inf ∧ m.w = FloatVal.inf ∧ m.stable = false := by
  have hvalid : ¬(lam ≤ 0 ∨ mu ≤ 0 ∨ c ≤ 0) := by
    push_neg
    exact ⟨hl, hm, hc⟩
  have heq : analyze_queue lam mu c =
      Except.ok
        { rho := lam / ((c : ℚ) * mu)
          traffic_intensity := lam / mu
          p0 := 0
          erlang_c := 1
          lq := .inf
          wq := .inf
          l := .inf
          w := .inf
          utilization := lam / ((c : ℚ) * mu) * 100
          stable := false } := by
    simp only [analyze_queue]
    rw [if_neg hvalid, if_neg (not_lt.mpr hrho)]
  exact ⟨_, heq, rfl, rfl, rfl, rfl, rfl, rfl, rfl⟩

/-- Witness for C2 at the spec scenario λ = 10, μ = 2, c = 3 (ρ = 5/3 ≥ 1). -/
theorem analyze_queue_unstable_witness :
    (0 : ℚ) < 10 ∧ (0 : ℚ) < 2 ∧ (0 : ℤ) < 3 ∧
      (1 : ℚ) ≤ 10 / (((3 : ℤ) : ℚ) * 2) ∧
      ∃ m : QueueMetrics, analyze_queue 10 2 3 = Except.ok m ∧
        m.p0 = 0 ∧ m.erlang_c = 1 ∧ m.lq = FloatVal.inf ∧ m.wq = FloatVal.inf ∧
        m.l = FloatVal.inf ∧ m.w = FloatVal.inf ∧ m.stable = false :=
  ⟨by norm_num, by norm_num, by norm_num, by norm_num,
    analyze_queue_unstable 10 2 3 (by norm_num) (by norm_num) (by norm_num)
      (by norm_num)⟩

/-- Claim C6 (amended part): `analyze_queue` rejects λ ≤ 0, μ ≤ 0 or c ≤ 0
with the invalid-parameter error before any computation. -/
theorem analyze_queue_rejects_nonpositive (lam mu : ℚ) (c : ℤ)
    (h : lam ≤ 0 ∨ mu ≤ 0 ∨ c ≤ 0) :
    analyze_queue lam mu c = Except.error "Parameters must be positive" := by
  simp only [analyze_queue]
  rw [if_pos h]

/-- Witness for the amended C6 at λ = 0, μ = 1, c = 1. -/
theorem analyze_queue_rejects_nonpositive_witness :
    ((0 : ℚ) ≤ 0 ∨ (1 : ℚ) ≤ 0 ∨ (1 : ℤ) ≤ 0) ∧
      analyze_queue 0 1 1 = Except.error "Parameters must be positive" :=
  ⟨Or.inl le_rfl, analyze_queue_rejects_nonpositive 0 1 1 (Or.inl le_rfl)⟩

/-- One entry of the state-probability response (lines 161-165). -/
structure StateEntry where
  state : ℕ
  probability : ℚ
  customers_in_queue : ℤ
deriving DecidableEq, Repr

/-- The `/api/state-probabilities` response record (lines 167-172). -/
structure StateResponse where
  p0 : ℚ
  states : List StateEntry
  traffic_intensity : ℚ
  utilization : ℚ
deriving DecidableEq, Repr

/-- Embedding of the `/api/state-probabilities` endpoint
`get_state_probabilities` (lines 141-172). The `for n in range(max_states+1)`
loop building the list becomes a map over `List.range (max_states + 1)`. -/
def get_state_probabilities (lambda_rate mu_rate : ℚ) (c_servers : ℤ)
    (max_states : ℕ) : Except String StateResponse :=
  let lam := lambda_rate
  let mu := mu_rate
  let c := c_servers
  let a := lam / mu
  let rho := lam / ((c : ℚ) * mu)
  if 1 ≤ rho then
    Except.error "System is unstable (rho >= 1)"
  else
    let p0 := calculate_p0 a c.toNat
    let probabilities := (List.range (max_states + 1)).map (fun (n : ℕ) =>
      if (n : ℤ) < c then
        { state := n
          probability := (a ^ n / factorial n) * p0
          customers_in_queue := max 0 ((n : ℤ) - c) }
      else
        { state := n
          probability := (a ^ n / (factorial c.toNat * (c : ℚ) ^ (n - c.toNat))) * p0
          customers_in_queue := max 0 ((n : ℤ) - c) })
    Except.ok
      { p0 := p0, states := probabilities, traffic_intensity := a,
        utilization := rho }

/-- Claim C3: for a stable parameter set (ρ < 1) and truncation depth
max_states, the returned distribution has length max_states + 1, and its n-th
entry carries state n, probability (aⁿ/n!)·p0 for n < c and
(aⁿ/(c!·c^(n−c)))·p0 for n ≥ c, and customers waiting max(0, n − c). -/
theorem get_state_probabilities_entries (lam mu : ℚ) (c : ℤ) (ms : ℕ)
    (hc : 0 < c) (hrho : lam / ((c : ℚ) * mu) < 1) :
    ∃ r : StateResponse, get_state_probabilities lam mu c ms = Except.ok r ∧
      r.states.length = ms + 1 ∧
      ∀ n (hn : n < r.states.length),
        (r.states.get ⟨n, hn⟩).state = n ∧
        (r.states.get ⟨n, hn⟩).probability =
          (if (n : ℤ) < c then
            ((lam / mu) ^ n / factorial n) * calculate_p0 (lam / mu) c.toNat
          else
            ((lam / mu) ^ n / (factorial c.toNat * (c : ℚ) ^ (n - c.toNat))) *
              calculate_p0 (lam / mu) c.toNat) ∧
        (r.states.get ⟨n, hn⟩).customers_in_queue = max 0 ((n : ℤ) - c) := by
  simp only [get_state_probabilities]
  rw [if_neg (not_le.mpr hrho)]
  refine ⟨_, rfl, ?_, ?_⟩
  · simp
  · intro n hn
    simp only [List.length_map, List.length_range] at hn
    simp only [List.get_eq_getElem, List.getElem_map, List.getElem_range]
    by_cases hnc : (n : ℤ) < c <;> simp [hnc]

/-- Witness for C3 at the spec scenario λ = 2, μ = 3, c = 1, max_states = 5. -/
theorem get_state_probabilities_entries_witness :
    (0 : ℤ) < 1 ∧ (2 : ℚ) / (((1 : ℤ) : ℚ) * 3) < 1 ∧
      ∃ r : StateResponse, get_state_probabilities 2 3 1 5 = Except.ok r ∧
        r.states.length = 5 + 1 ∧
        ∀ n (hn : n < r.states.length),
          (r.states.get ⟨n, hn⟩).state = n ∧
          (r.states.get ⟨n, hn⟩).probability =
            (if (n : ℤ) < 1 then
              ((2 / 3 : ℚ) ^ n / factorial n) * calculate_p0 (2 / 3) (1 : ℤ).toNat
            else
              ((2 / 3 : ℚ) ^ n /
                (factorial (1 : ℤ).toNat * ((1 : ℤ) : ℚ) ^ (n - (1 : ℤ).toNat))) *
                calculate_p0 (2 / 3) (1 : ℤ).toNat) ∧
          (r.states.get ⟨n, hn⟩).customers_in_queue = max 0 ((n : ℤ) - 1) :=
  ⟨by norm_num, by norm_num,
    get_state_probabilities_entries 2 3 1 5 (by norm_num) (by norm_num)⟩

/-- Claim C7: `get_state_probabilities` fails (with the unstable-system
error and no partial distribution) exactly when ρ = λ/(cμ) ≥ 1; stated on
the domain μ > 0, c > 0 where the embedding is faithful (elsewhere the
source's division raises before the stability check). -/
theorem get_state_probabilities_error_iff (lam mu : ℚ) (c : ℤ) (ms : ℕ)
    (hm : 0 < mu) (hc : 0 < c) :
    (∃ e, get_state_probabilities lam mu c ms = Except.error e) ↔
      1 ≤ lam / ((c : ℚ) * mu) := by
  simp only [get_state_probabilities]
  split
  · next h => simpa using h
  · next h =>
    simp only [not_le] at h
    simp [not_le.mpr h]

/-- Witness for C7 at λ = 10, μ = 2, c = 3, max_states = 4. -/
theorem get_state_probabilities_error_iff_witness :
    (0 : ℚ) < 2 ∧ (0 : ℤ) < 3 ∧
      ((∃ e, get_state_probabilities 10 2 3 4 = Except.error e) ↔
        1 ≤ (10 : ℚ) / (((3 : ℤ) : ℚ) * 2)) :=
  ⟨by norm_num, by norm_num,
    get_state_probabilities_error_iff 10 2 3 4 (by norm_num) (by norm_num)⟩

/-- Counterexample to claim C6: the state-probabilities endpoint performs no
positivity validation. Called with λ = −1 ≤ 0 (μ = 1, c = 1) it computes and
returns a distribution instead of raising any error. -/
theorem get_state_probabilities_no_validation :
    (get_state_probabilities (-1) 1 1 20).toOption.isSome = true := by
  simp only [get_state_probabilities]
  rw [if_neg (by norm_num)]
  rfl

/-- The factorial helper is positive. -/
lemma factorial_pos (n : ℕ) : 0 < factorial n := by
  unfold factorial
  exact_mod_cast n.factorial_pos

/-- Each Erlang term a^k/k! is non-negative for a ≥ 0. -/
lemma erlang_term_nonneg (a : ℚ) (ha : 0 ≤ a) (k : ℕ) :
    0 ≤ a ^ k / factorial k :=
  div_nonneg (pow_nonneg ha k) (factorial_pos k).le

/-- The truncated exponential sum Σ_{k<c} a^k/k! is at least its k = 0
term, which is 1. -/
lemma one_le_sum_term (a : ℚ) (ha : 0 ≤ a) {c : ℕ} (hc : 0 < c) :
    1 ≤ (Finset.range c).sum (fun k => a ^ k / factorial k) := by
  calc (1 : ℚ) = a ^ 0 / factorial 0 := by simp [factorial]
    _ ≤ (Finset.range c).sum (fun k => a ^ k / factorial k) :=
      Finset.single_le_sum (fun k _ => erlang_term_nonneg a ha k)
        (Finset.mem_range.mpr hc)

/-- The closing term (a^c/c!)·(c/(c−a)) of the p0 denominator is positive
when 0 < a < c. -/
lemma last_term_pos (a : ℚ) {c : ℕ} (ha : 0 < a) (hac : a < (c : ℚ)) :
    0 < (a ^ c / factorial c) * ((c : ℚ) / ((c : ℚ) - a)) :=
  mul_pos (div_pos (pow_pos ha c) (factorial_pos c))
    (div_pos (lt_trans ha hac) (sub_pos.mpr hac))

/-- On the stable region 0 < a < c the empty-state probability is positive. -/
lemma calculate_p0_pos (a : ℚ) {c : ℕ} (ha : 0 < a) (hac : a < (c : ℚ)) :
    0 < calculate_p0 a c := by
  have hc : 0 < c := by
    have := lt_trans ha hac
    exact_mod_cast this
  have hS := one_le_sum_term a ha.le hc
  have hT := last_term_pos a ha hac
  simp only [calculate_p0]
  exact div_pos one_pos (by linarith)

/-- On the stable region 0 < a < c the empty-state probability is at most 1. -/
lemma calculate_p0_le_one (a : ℚ) {c : ℕ} (ha : 0 < a) (hac : a < (c : ℚ)) :
    calculate_p0 a c ≤ 1 := by
  have hc : 0 < c := by
    have := lt_trans ha hac
    exact_mod_cast this
  have hS := one_le_sum_term a ha.le hc
  have hT := last_term_pos a ha hac
  simp only [calculate_p0]
  rw [div_le_one (by linarith)]
  linarith

/-- With ρ = a/c the Erlang-C value factors as the closing p0-denominator
term times p0, using 1 − a/c = (c − a)/c. -/
lemma calculate_erlang_c_eq (a : ℚ) {c : ℕ} (ha : 0 < a) (hac : a < (c : ℚ)) :
    calculate_erlang_c a c (a / (c : ℚ)) =
      (a ^ c / factorial c) * ((c : ℚ) / ((c : ℚ) - a)) * calculate_p0 a c := by
  have hc0 : (0 : ℚ) < (c : ℚ) := lt_trans ha hac
  have hca : (c : ℚ) - a ≠ 0 := ne_of_gt (sub_pos.mpr hac)
  have hrho : a / (c : ℚ) < 1 := (div_lt_one hc0).mpr hac
  have hone : 1 - a / (c : ℚ) ≠ 0 := by
    have h1 : 1 - a / (c : ℚ) = ((c : ℚ) - a) / (c : ℚ) := by field_simp
    rw [h1]
    exact div_ne_zero hca hc0.ne'
  simp only [calculate_erlang_c]
  rw [if_neg (not_le.mpr hrho)]
  field_simp
  ring

/-- With ρ = a/c the Erlang-C value is non-negative on 0 < a < c. -/
lemma calculate_erlang_c_nonneg (a : ℚ) {c : ℕ} (ha : 0 < a)
    (hac : a < (c : ℚ)) : 0 ≤ calculate_erlang_c a c (a / (c : ℚ)) := by
  rw [calculate_erlang_c_eq a ha hac]
  exact mul_nonneg (last_term_pos a ha hac).le (calculate_p0_pos a ha hac).le

/-- With ρ = a/c the Erlang-C value is at most 1 on 0 < a < c. -/
lemma calculate_erlang_c_le_one (a : ℚ) {c : ℕ} (ha : 0 < a)
    (hac : a < (c : ℚ)) : calculate_erlang_c a c (a / (c : ℚ)) ≤ 1 := by
  have hc : 0 < c := by
    have := lt_trans ha hac
    exact_mod_cast this
  have hS := one_le_sum_term a ha.le hc
  have hT := last_term_pos a ha hac
  rw [calculate_erlang_c_eq a ha hac]
  simp only [calculate_p0]
  rw [mul_one_div, div_le_one (by linarith)]
  linarith

/-- Claim C5: for every λ > 0, μ > 0, c > 0 with ρ = λ/(cμ) < 1, the metrics
returned by `analyze_queue` satisfy p0 ∈ (0,1], blocking probability ∈ [0,1],
Lq ≥ 0, Wq ≥ 0, and L − Lq equals the offered load a = λ/μ exactly
(Little's-law consistency, exact in the rational embedding). -/
theorem analyze_queue_stable_invariants (lam mu : ℚ) (c : ℤ) (hl : 0 < lam)
    (hm : 0 < mu) (hc : 0 < c) (hrho : lam / ((c : ℚ) * mu) < 1) :
    ∃ m : QueueMetrics, analyze_queue lam mu c = Except.ok m ∧
      (0 < m.p0 ∧ m.p0 ≤ 1) ∧ (0 ≤ m.erlang_c ∧ m.erlang_c ≤ 1) ∧
      ∃ lqv wqv lv wv : ℚ, m.lq = FloatVal.fin lqv ∧ m.wq = FloatVal.fin wqv ∧
        m.l = FloatVal.fin lv ∧ m.w = FloatVal.fin wv ∧
        0 ≤ lqv ∧ 0 ≤ wqv ∧ lv - lqv = lam / mu := by
  have hvalid : ¬(lam ≤ 0 ∨ mu ≤ 0 ∨ c ≤ 0) := by
    push_neg
    exact ⟨hl, hm, hc⟩
  have hcQ : (0 : ℚ) < (c : ℚ) := by exact_mod_cast hc
  have hcmu : (0 : ℚ) < (c : ℚ) * mu := mul_pos hcQ hm
  have hlt : lam < (c : ℚ) * mu := (div_lt_one hcmu).mp hrho
  have ha : 0 < lam / mu := div_pos hl hm
  have hacQ : lam / mu < (c : ℚ) := (div_lt_iff₀ hm).mpr hlt
  have hcn : ((c.toNat : ℕ) : ℚ) = (c : ℚ) := by
    exact_mod_cast Int.toNat_of_nonneg hc.le
  have hacn : lam / mu < ((c.toNat : ℕ) : ℚ) := by
    rw [hcn]
    exact hacQ
  have hrho_eq : lam / ((c : ℚ) * mu) = (lam / mu) / ((c.toNat : ℕ) : ℚ) := by
    rw [hcn, div_div, mul_comm]
  have hX : (0 : ℚ) < (c : ℚ) * mu - lam := by linarith
  have hE0 : 0 ≤ calculate_erlang_c (lam / mu) c.toNat (lam / ((c : ℚ) * mu)) := by
    rw [hrho_eq]
    exact calculate_erlang_c_nonneg _ ha hacn
  have hE1 : calculate_erlang_c (lam / mu) c.toNat (lam / ((c : ℚ) * mu)) ≤ 1 := by
    rw [hrho_eq]
    exact calculate_erlang_c_le_one _ ha hacn
  simp only [analyze_queue]
  rw [if_neg hvalid, if_pos hrho]
  refine ⟨_, rfl, ⟨?_, ?_⟩, ⟨?_, ?_⟩, ?_⟩
  · exact calculate_p0_pos _ ha hacn
  · exact calculate_p0_le_one _ ha hacn
  · exact hE0
  · exact hE1
  · refine ⟨_, _, _, _, rfl, rfl, rfl, rfl, ?_, ?_, ?_⟩
    · exact mul_nonneg hl.le
        (div_nonneg (mul_nonneg (div_nonneg hE0 hX.le) (by norm_num))
          (by norm_num))
    · exact mul_nonneg (div_nonneg hE0 hX.le) (by norm_num)
    · have key : ∀ w0 : ℚ, lam * ((w0 + 60 / mu) / 60) - lam * (w0 / 60) =
          lam / mu := by
        intro w0
        field_simp
        ring
      exact key _

/-- Witness for C5 at the spec scenario λ = 2, μ = 3, c = 1 (ρ = 2/3 < 1). -/
theorem analyze_queue_stable_invariants_witness :
    (0 : ℚ) < 2 ∧ (0 : ℚ) < 3 ∧ (0 : ℤ) < 1 ∧
      (2 : ℚ) / (((1 : ℤ) : ℚ) * 3) < 1 ∧
      ∃ m : QueueMetrics, analyze_queue 2 3 1 = Except.ok m ∧
        (0 < m.p0 ∧ m.p0 ≤ 1) ∧ (0 ≤ m.erlang_c ∧ m.erlang_c ≤ 1) ∧
        ∃ lqv wqv lv wv : ℚ, m.lq = FloatVal.fin lqv ∧ m.wq = FloatVal.fin wqv ∧
          m.l = FloatVal.fin lv ∧ m.w = FloatVal.fin wv ∧
          0 ≤ lqv ∧ 0 ≤ wqv ∧ lv - lqv = 2 / 3 :=
  ⟨by norm_num, by norm_num, by norm_num, by norm_num,
    analyze_queue_stable_invariants 2 3 1 (by norm_num) (by norm_num)
      (by norm_num) (by norm_num)⟩

/-- Embedding of the arrival-generation while loop of `simulate_queue`
(lines 110-116): gaps are the successive exponential interarrival draws, the
second argument is the running clock `current_time`, the third is
`sim_time`. The loop guard is re-checked before each draw, the accumulated
time is appended only while it is still before the horizon, and the list of
draws is finite fuel standing for the unbounded random stream. -/
def generate_arrivals : List ℚ → ℚ → ℚ → List ℚ
  | [], _, _ => []
  | gap :: rest, current_time, sim_time =>
    if current_time < sim_time then
      if current_time + gap < sim_time then
        (current_time + gap) :: generate_arrivals rest (current_time + gap) sim_time
      else
        generate_arrivals rest (current_time + gap) sim_time
    else []

/-- Modelled from the spec sentence for C8: the arrival stream described as
the running partial sums of the interarrival gaps, accumulated from the
given starting clock. -/
def cumulative_times : ℚ → List ℚ → List ℚ
  | _, [] => []
  | t, gap :: rest => (t + gap) :: cumulative_times (t + gap) rest

/-- Once the running clock has reached the horizon the loop generates
nothing more. -/
lemma generate_arrivals_stopped (gaps : List ℚ) (cur T : ℚ) (h : T ≤ cur) :
    generate_arrivals gaps cur T = [] := by
  cases gaps with
  | nil => rfl
  | cons g rest => simp [generate_arrivals, not_lt.mpr h]

/-- The generation loop returns exactly the partial sums that are strictly
before the horizon, provided the gaps are non-negative (exponential draws
always are). -/
lemma generate_arrivals_eq_takeWhile (gaps : List ℚ) (T : ℚ) :
    ∀ cur : ℚ, (∀ g ∈ gaps, 0 ≤ g) →
      generate_arrivals gaps cur T =
        (cumulative_times cur gaps).takeWhile (fun t => decide (t < T)) := by
  induction gaps with
  | nil =>
    intro cur _
    rfl
  | cons g rest ih =>
    intro cur hg
    have hgr : ∀ x ∈ rest, 0 ≤ x := fun x hx => hg x (List.mem_cons_of_mem g hx)
    have hg0 : 0 ≤ g := hg g (List.mem_cons_self g rest)
    by_cases hcur : cur < T
    · simp only [generate_arrivals, if_pos hcur, cumulative_times,
        List.takeWhile_cons]
      by_cases ht : cur + g < T
      · rw [ih (cur + g) hgr]
        simp [ht]
      · rw [generate_arrivals_stopped rest (cur + g) T (not_lt.mp ht)]
        simp [ht]
    · have hng : ¬ (cur + g < T) := fun hlt =>
        hcur (lt_of_le_of_lt (le_add_of_nonneg_right hg0) hlt)
      simp only [generate_arrivals, if_neg hcur, cumulative_times,
        List.takeWhile_cons]
      simp [hng]

/-- Claim C8: in every run of the simulation, the arrival stream is the
accumulation of the interarrival gaps from time 0 truncated at the horizon:
the generated list is exactly the partial sums that are strictly before the
horizon (so the draw that reaches or crosses it is discarded), and in
particular every recorded arrival time is strictly before the horizon. -/
theorem simulate_arrivals_spec (gaps : List ℚ) (T : ℚ)
    (h : ∀ g ∈ gaps, 0 ≤ g) :
    generate_arrivals gaps 0 T =
      (cumulative_times 0 gaps).takeWhile (fun t => decide (t < T)) ∧
    ∀ t ∈ generate_arrivals gaps 0 T, t < T := by
  have heq := generate_arrivals_eq_takeWhile gaps T 0 h
  refine ⟨heq, ?_⟩
  intro t ht
  rw [heq] at ht
  simpa using List.mem_takeWhile_imp ht

/-- Witness for C8 on the gap stream [1, 2, 50, 1] with horizon 10: the
third partial sum 53 crosses the horizon and is discarded. -/
theorem simulate_arrivals_spec_witness :
    (∀ g ∈ ([1, 2, 50, 1] : List ℚ), 0 ≤ g) ∧
      (generate_arrivals [1, 2, 50, 1] 0 10 =
        (cumulative_times 0 [1, 2, 50, 1]).takeWhile (fun t => decide (t < 10)) ∧
       ∀ t ∈ generate_arrivals [1, 2, 50, 1] 0 10, t < 10) :=
  ⟨by intro g hg; fin_cases hg <;> norm_num,
    simulate_arrivals_spec [1, 2, 50, 1] 10
      (by intro g hg; fin_cases hg <;> norm_num)⟩

/-- Embedding of `min(range(c), key=lambda i: servers_busy_until[i])`
(line 122): the first index attaining the minimal busy-until time. -/
def argmin_index : List ℚ → ℕ
  | [] => 0
  | x :: rest =>
    if rest.all (fun y => decide (x ≤ y)) then 0 else argmin_index rest + 1

/-- Embedding of the service-assignment for loop of `simulate_queue`
(lines 121-128): one wait time is appended per arrival, the chosen server's
busy-until entry is updated in place, and the service-duration draws are
consumed in order from the injected stream. -/
def process_arrivals (durations : ℕ → ℚ) :
    List ℚ → List ℚ → ℕ → List ℚ
  | [], _, _ => []
  | arrival_time :: rest, servers_busy_until, draw_index =>
    let earliest_server := argmin_index servers_busy_until
    let service_start :=
      max arrival_time (servers_busy_until.getD earliest_server 0)
    let wait_time := service_start - arrival_time
    let service_duration := durations draw_index
    wait_time :: process_arrivals durations rest
      (servers_busy_until.set earliest_server (service_start + service_duration))
      (draw_index + 1)

/-- Embedding of `np.max` over a non-empty list of waits (line 131). -/
def list_max : List ℚ → ℚ
  | [] => 0
  | x :: rest => rest.foldl max x

/-- The `/api/simulate` response record (lines 133-139). -/
structure SimulationResult where
  total_arrivals : ℕ
  total_served : ℕ
  avg_wait_time_minutes : ℚ
  max_wait_time_minutes : ℚ
  wait_times_sample : List ℚ
deriving DecidableEq, Repr

/-- Embedding of the `/api/simulate` endpoint `simulate_queue`
(lines 103-139). The two exponential random streams are injected: `gaps`
are the interarrival draws and `durations` the service-duration draws
(indexed by draw order); `lambda_rate` and `mu_rate` only parameterize
those draws in the source and are carried for interface fidelity. -/
def simulate_queue (gaps : List ℚ) (durations : ℕ → ℚ)
    (lambda_rate mu_rate : ℚ) (c_servers : ℤ) (simulation_time : ℚ) :
    SimulationResult :=
  let sim_time := simulation_time
  let c := c_servers
  let arrivals := generate_arrivals gaps 0 sim_time
  let servers_busy_until := List.replicate c.toNat (0 : ℚ)
  let wait_times := process_arrivals durations arrivals servers_busy_until 0
  let avg_wait := if wait_times.isEmpty then 0
    else (wait_times.sum / (wait_times.length : ℚ)) * 60
  let max_wait := if wait_times.isEmpty then 0 else list_max wait_times * 60
  { total_arrivals := arrivals.length
    total_served := wait_times.length
    avg_wait_time_minutes := avg_wait
    max_wait_time_minutes := max_wait
    wait_times_sample := (wait_times.take 10).map (fun w0 => w0 * 60) }

/-- The assignment loop yields exactly one wait per arrival. -/
lemma process_arrivals_length (durations : ℕ → ℚ) :
    ∀ (arrivals servers : List ℚ) (i : ℕ),
      (process_arrivals durations arrivals servers i).length =
        arrivals.length := by
  intro arrivals
  induction arrivals with
  | nil =>
    intro servers i
    rfl
  | cons a rest ih =>
    intro servers i
    simp [process_arrivals, ih]

/-- Every realized wait is non-negative: service starts at
max(arrival, server-free time) ≥ arrival. -/
lemma process_arrivals_nonneg (durations : ℕ → ℚ) :
    ∀ (arrivals servers : List ℚ) (i : ℕ) (w0 : ℚ),
      w0 ∈ process_arrivals durations arrivals servers i → 0 ≤ w0 := by
  intro arrivals
  induction arrivals with
  | nil =>
    intro servers i w0 hw
    simp [process_arrivals] at hw
  | cons a rest ih =>
    intro servers i w0 hw
    simp only [process_arrivals, List.mem_cons] at hw
    rcases hw with h | h
    · rw [h]
      have := le_max_left a (servers.getD (argmin_index servers) 0)
      linarith
    · exact ih _ _ _ h

/-- Claim C10: in every run of the simulation (with at least one server, as
any completed Python run has), total_served equals total_arrivals — each
arrival generated before the horizon contributes exactly one realized wait,
and every realized wait is non-negative, so no arrival is lost or left
unserved. -/
theorem simulate_queue_serves_all (gaps : List ℚ) (durations : ℕ → ℚ)
    (lam mu : ℚ) (c : ℤ) (T : ℚ) (hc : 0 < c) :
    (simulate_queue gaps durations lam mu c T).total_served =
      (simulate_queue gaps durations lam mu c T).total_arrivals ∧
    ∀ w0 ∈ process_arrivals durations (generate_arrivals gaps 0 T)
        (List.replicate c.toNat 0) 0, 0 ≤ w0 := by
  constructor
  · exact process_arrivals_length durations _ _ _
  · intro w0 hw0
    exact process_arrivals_nonneg durations _ _ _ _ hw0

/-- Witness for C10 on the gap stream [1, 2, 50] with unit service times,
one server and horizon 10. -/
theorem simulate_queue_serves_all_witness :
    (0 : ℤ) < 1 ∧
      ((simulate_queue [1, 2, 50] (fun _ => 1) 1 1 1 10).total_served =
        (simulate_queue [1, 2, 50] (fun _ => 1) 1 1 1 10).total_arrivals ∧
       ∀ w0 ∈ process_arrivals (fun _ => 1) (generate_arrivals [1, 2, 50] 0 10)
          (List.replicate (1 : ℤ).toNat 0) 0, 0 ≤ w0) :=
  ⟨by norm_num,
    simulate_queue_serves_all [1, 2, 50] (fun _ => 1) 1 1 1 10 (by norm_num)⟩
